import Mathlib

/-!
Verification development for the `yu_tool` export pipeline.

The definitions below are shallow embeddings of the Go functions in
`main.go` / `export.go` (and the earlier variants of the same pipeline kept
in the repository).  Strings are modelled by Lean `String`; Go byte lengths
are modelled by `utf8Len` on the underlying character list; Go rune
iteration is modelled by iterating over `String.data`.  Functions that can
panic or fail are modelled with `Option` / `Except`.
-/

namespace YuTool

/-- Whitespace test used by Go `strings.Fields` / `strings.TrimSpace`
(`unicode.IsSpace`), restricted to the Latin-1 white-space characters that
can actually occur in the dictionary files. -/
def isGoSpace (c : Char) : Bool :=
  c = ' ' || c = '\t' || c = '\n' || c = '\r' ||
    c = '\x0b' || c = '\x0c' || c = '\x85' || c = '\xa0'

/-- Splits a character list at every character satisfying `p`, keeping empty
segments (the splitting behaviour shared by Go `strings.Split` and the
first phase of `strings.Fields`). -/
def splitWhen (p : Char → Bool) : List Char → List (List Char)
  | [] => [[]]
  | c :: cs =>
    match splitWhen p cs with
    | [] => [[]]
    | g :: gs => if p c then [] :: g :: gs else (c :: g) :: gs

/-- Go `strings.Split(s, sep)` for a one-character separator. -/
def goSplitOn (s : String) (sep : Char) : List String :=
  (splitWhen (fun c => c = sep) s.data).map String.mk

/-- Go `strings.Fields`: split around runs of white space, dropping empty
fields. -/
def goFields (s : String) : List String :=
  ((splitWhen isGoSpace s.data).filter (· ≠ [])).map String.mk

/-- UTF-8 byte length of a character list; models Go `len(s)` on strings. -/
def utf8Len : List Char → Nat
  | [] => 0
  | c :: cs => c.utf8Size + utf8Len cs

/-- Go `strings.TrimSpace`. -/
def goTrim (s : String) : String :=
  String.mk (((s.data.dropWhile isGoSpace).reverse.dropWhile isGoSpace).reverse)

/-- Go `strings.TrimPrefix(s, pre)`: drop `pre` when it is a prefix of `s`,
otherwise return `s` unchanged. -/
def goTrimPre (pre s : String) : String :=
  if pre.data.isPrefixOf s.data then String.mk (s.data.drop pre.data.length) else s

/-- Numeric value of a run of decimal digits. -/
def digitsVal (l : List Char) : Nat :=
  l.foldl (fun a c => a * 10 + (c.toNat - 48)) 0

/-- Model of `fmt.Sscanf(s, "%d", &n)`: skip leading white space, read an
optional sign and then a non-empty run of digits (trailing input is
ignored); `none` models a scan error. -/
def scanInt (l : List Char) : Option Int :=
  let l1 := l.dropWhile isGoSpace
  match l1 with
  | '-' :: rest =>
    if rest.takeWhile Char.isDigit = [] then none
    else some (-(digitsVal (rest.takeWhile Char.isDigit) : Int))
  | '+' :: rest =>
    if rest.takeWhile Char.isDigit = [] then none
    else some ((digitsVal (rest.takeWhile Char.isDigit) : Int))
  | _ =>
    if l1.takeWhile Char.isDigit = [] then none
    else some ((digitsVal (l1.takeWhile Char.isDigit) : Int))

/-- Today's date rendered the way `updateConfigVersion` renders it:
`fmt.Sprintf("%d.%d.%d", year, month, day)`, i.e. without zero padding. -/
def fmtDate (y m d : Nat) : String :=
  toString y ++ "." ++ toString m ++ "." ++ toString d

/-- Model of `updateConfigVersion` (export.go).  The system clock is made
explicit: `y m d` are the components of today's date. -/
def updateConfigVersion (current : String) (y m d : Nat) : String :=
  let parts := goSplitOn current '-'
  let datePart := if 2 ≤ parts.length then parts.headD "" else current
  let seq : Int :=
    if 2 ≤ parts.length then (scanInt (parts.getD 1 "").data).getD 0 else 0
  let currentDate := fmtDate y m d
  let seq2 : Int := if datePart = currentDate then seq + 1 else 1
  currentDate ++ "-" ++ toString seq2

example : updateConfigVersion "2026.1.29-3" 2026 1 29 = "2026.1.29-4" := by decide
example : updateConfigVersion "2026.1.29-3" 2026 1 30 = "2026.1.30-1" := by decide
example : updateConfigVersion "2026.1.29-x" 2026 1 29 = "2026.1.29-1" := by decide
example : updateConfigVersion "2026.1.29" 2026 1 29 = "2026.1.29-1" := by decide
example : goFields "  a b  c " = ["a", "b", "c"] := by decide

/-- Root-dictionary line processing of `export` in `main.go` (the variant
that strips the literal `/lm` prefix with `strings.TrimPrefix`).  A line
starting with `+` that splits into at least 4 fields emits one entry per
rune of `fields[3]`; each entry is `(single character, key ++ code)` with
`code = fields[1]` and `key = TrimPrefix(lastField, "/lm")`.  Any other
line emits nothing. -/
def rootParseLine (line : String) : List (String × String) :=
  if "+".data.isPrefixOf line.data then
    let fields := goFields line
    if 4 ≤ fields.length then
      let code := fields.getD 1 ""
      let words := fields.getD 3 ""
      let lastField := fields.getLastD ""
      let key := goTrimPre "/lm" lastField
      words.data.map (fun w => (String.mk [w], key ++ code))
    else []
  else []

example : rootParseLine "+ ab x 你好 cc /lmk" = [("你", "kab"), ("好", "kab")] := by decide
example : rootParseLine "comment line" = [] := by decide
example : rootParseLine "+ a b" = [] := by decide

/-- Go slice expression `s[n:]` on a string, at the byte level: `none`
models the out-of-range panic `n > len(s)` (and also a cut through the
middle of a UTF-8 sequence, which a Lean `String` cannot represent; the
inputs used below never hit that case). -/
def dropBytesGo : List Char → Nat → Option (List Char)
  | l, 0 => some l
  | [], _ + 1 => none
  | c :: cs, n + 1 => if c.utf8Size ≤ n + 1 then dropBytesGo cs (n + 1 - c.utf8Size) else none

/-- Root-dictionary line processing of the later `exportRoot` variants
(`src/unnamed/part_002`), which extract the key with the unconditional byte
slice `lastField[3:]` instead of `strings.TrimPrefix`.  The outer `Option`
is `none` when the slice panics. -/
def rootParseLineSlice (line : String) : Option (List (String × String)) :=
  if "+".data.isPrefixOf line.data then
    let fields := goFields line
    if 4 ≤ fields.length then
      match dropBytesGo (fields.getLastD "").data 3 with
      | none => none
      | some keyChars =>
        let key := String.mk keyChars
        let code := fields.getD 1 ""
        some ((fields.getD 3 "").data.map (fun w => (String.mk [w], key ++ code)))
    else some []
  else some []

/-- Scanning loop of the `lastField[3:]` variants of `exportRoot` over a
whole file: entries accumulate line by line, and a panic on any line aborts
the run (`none`). -/
def exportRootSliceLines : List String → Option (List (String × String))
  | [] => some []
  | l :: ls =>
    match rootParseLineSlice l with
    | none => none
    | some es => (exportRootSliceLines ls).map (es ++ ·)

example : rootParseLineSlice "+ ab x 你好 cc /lmk" = some [("你", "kab"), ("好", "kab")] := by decide
example : rootParseLineSlice "+ a b 好 xx" = none := by decide

/-- Go `isEnglishLettersOnly`: every rune is an ASCII letter. -/
def isEnglishLettersOnly (s : String) : Bool :=
  s.data.all fun c => (decide ('a' ≤ c) && decide (c ≤ 'z')) || (decide ('A' ≤ c) && decide (c ≤ 'Z'))

/-- Go `isAllASCII`: no rune is above code point 127. -/
def isAllASCII (s : String) : Bool :=
  s.data.all fun c => decide (c.toNat ≤ 127)

/-- DictEntry of export.go: `[2]string` holding `(code, word)`. -/
abbrev DictEntry := String × String

/-- Line filter and classification shared by the quick-word and pop-word
parsers (`exportQuickWordsFromFile` / `exportPopWordsFromFile`): a line
contributes iff it has exactly two fields `word code` with `code` all ASCII
letters and `word` not all ASCII; the Bool is `true` for a multi-rune word,
`false` for a single character. -/
def quickLine (line : String) : Option (Bool × DictEntry) :=
  match goFields line with
  | [word, code] =>
    if !isEnglishLettersOnly code || isAllASCII word then none
    else some (if 1 < word.data.length then (true, (code, word)) else (false, (code, word)))
  | _ => none

/-- Scanning loop of the quick/pop parsers: split the kept entries into the
`words` and `chars` lists, preserving input order. -/
def quickScan : List String → List DictEntry × List DictEntry
  | [] => ([], [])
  | l :: ls =>
    let r := quickScan ls
    match quickLine l with
    | none => r
    | some (true, e) => (e :: r.1, r.2)
    | some (false, e) => (r.1, e :: r.2)

example : quickLine "hello ABC" = none := by decide
example : quickLine "你好 ni" = some (true, ("ni", "你好")) := by decide
example : quickLine "你 n" = some (false, ("n", "你")) := by decide
example : quickLine "你好 n2" = none := by decide

/-- Byte-wise lexicographic strict comparison of Go strings, on the
character lists (UTF-8 byte order and code-point order agree). -/
def listLtChar : List Char → List Char → Bool
  | [], [] => false
  | [], _ :: _ => true
  | _ :: _, [] => false
  | a :: as, b :: bs =>
    if a.toNat < b.toNat then true
    else if b.toNat < a.toNat then false
    else listLtChar as bs

theorem listLtChar_irrefl : ∀ l : List Char, listLtChar l l = false := by
  intro l
  induction l with
  | nil => rfl
  | cons a as ih => simp [listLtChar, ih]

theorem listLtChar_trans : ∀ (l₁ l₂ l₃ : List Char), listLtChar l₁ l₂ = true →
    listLtChar l₂ l₃ = true → listLtChar l₁ l₃ = true := by
  intro l₁
  induction l₁ with
  | nil =>
    intro l₂ l₃ h₁ h₂
    cases l₂ with
    | nil => cases h₁
    | cons b bs =>
      cases l₃ with
      | nil => cases h₂
      | cons c cs => rfl
  | cons a as ih =>
    intro l₂ l₃ h₁ h₂
    cases l₂ with
    | nil => cases h₁
    | cons b bs =>
      cases l₃ with
      | nil => cases h₂
      | cons c cs =>
        simp only [listLtChar] at h₁ h₂ ⊢
        split_ifs at h₁ h₂ ⊢ <;>
          first
            | rfl
            | omega
            | (exact ih bs cs h₁ h₂)

theorem listLtChar_trichotomy : ∀ (l₁ l₂ : List Char),
    listLtChar l₁ l₂ = true ∨ l₁ = l₂ ∨ listLtChar l₂ l₁ = true := by
  intro l₁
  induction l₁ with
  | nil =>
    intro l₂
    cases l₂ <;> simp [listLtChar]
  | cons a as ih =>
    intro l₂
    cases l₂ with
    | nil => simp [listLtChar]
    | cons b bs =>
      rcases Nat.lt_trichotomy a.toNat b.toNat with h | h | h
      · left; simp [listLtChar, h]
      · have hab : a = b := Char.ext (UInt32.toNat.inj h)
        subst hab
        rcases ih bs with h' | h' | h'
        · left; simp [listLtChar, h']
        · right; left; rw [h']
        · right; right; simp [listLtChar, h']
      · right; right; simp [listLtChar, h]

theorem listLtChar_asymm {l₁ l₂ : List Char} (h : listLtChar l₁ l₂ = true) :
    listLtChar l₂ l₁ = false := by
  by_contra hc
  rw [Bool.not_eq_false] at hc
  have := listLtChar_trans l₁ l₂ l₁ h hc
  rw [listLtChar_irrefl] at this
  cases this

/-- Comparison closure passed to `sort.SliceStable` in `sortByCode`
(export.go): strictly shorter code first (byte length), then byte-wise
lexicographically smaller code first. -/
def lessCode (a b : DictEntry) : Bool :=
  if utf8Len a.1.data ≠ utf8Len b.1.data then decide (utf8Len a.1.data < utf8Len b.1.data)
  else listLtChar a.1.data b.1.data

/-- Total preorder induced by `lessCode`: `a` may come before `b` exactly
when `b` is not strictly smaller than `a`. -/
def codeLe (a b : DictEntry) : Prop := ¬ lessCode b a = true

instance : DecidableRel codeLe := fun _ _ => instDecidableNot

theorem codeLe_iff {a b : DictEntry} :
    codeLe a b ↔
      utf8Len a.1.data < utf8Len b.1.data ∨
        (utf8Len a.1.data = utf8Len b.1.data ∧
          (listLtChar a.1.data b.1.data = true ∨ a.1 = b.1)) := by
  unfold codeLe lessCode
  by_cases h : utf8Len b.1.data = utf8Len a.1.data
  · rw [if_neg (by simp [h])]
    constructor
    · intro hnb
      rcases listLtChar_trichotomy a.1.data b.1.data with h' | h' | h'
      · exact Or.inr ⟨h.symm, Or.inl h'⟩
      · exact Or.inr ⟨h.symm, Or.inr (String.toList_inj.mp h')⟩
      · exact absurd h' hnb
    · rintro (hlt | ⟨-, hlex | heq⟩)
      · omega
      · intro hb
        have := listLtChar_asymm hlex
        rw [this] at hb
        cases hb
      · intro hb
        rw [heq, listLtChar_irrefl] at hb
        cases hb
  · rw [if_pos h]
    simp only [decide_eq_true_eq, Nat.not_lt]
    constructor
    · intro hle
      exact Or.inl (Nat.lt_of_le_of_ne hle fun e => h e.symm)
    · rintro (hlt | ⟨heq, -⟩)
      · exact Nat.le_of_lt hlt
      · exact absurd heq.symm h

instance : IsTotal DictEntry codeLe :=
  ⟨fun a b => by
    rw [codeLe_iff, codeLe_iff]
    rcases Nat.lt_trichotomy (utf8Len a.1.data) (utf8Len b.1.data) with h | h | h
    · exact Or.inl (Or.inl h)
    · rcases listLtChar_trichotomy a.1.data b.1.data with h' | h' | h'
      · exact Or.inl (Or.inr ⟨h, Or.inl h'⟩)
      · exact Or.inl (Or.inr ⟨h, Or.inr (String.toList_inj.mp h')⟩)
      · exact Or.inr (Or.inr ⟨h.symm, Or.inl h'⟩)
    · exact Or.inr (Or.inl h)⟩

instance : IsTrans DictEntry codeLe :=
  ⟨fun a b c hab hbc => by
    rw [codeLe_iff] at hab hbc ⊢
    rcases hab with h₁ | ⟨e₁, d₁⟩ <;> rcases hbc with h₂ | ⟨e₂, d₂⟩
    · exact Or.inl (by omega)
    · exact Or.inl (by omega)
    · exact Or.inl (by omega)
    · refine Or.inr ⟨by omega, ?_⟩
      rcases d₁ with hl₁ | he₁ <;> rcases d₂ with hl₂ | he₂
      · exact Or.inl (listLtChar_trans _ _ _ hl₁ hl₂)
      · exact Or.inl (he₂ ▸ hl₁)
      · exact Or.inl (he₁ ▸ hl₂)
      · exact Or.inr (he₁.trans he₂)⟩

/-- Model of `sortByCode` (export.go): `sort.SliceStable` with `lessCode` —
embedded as the stable sort by the total preorder `codeLe` (the output of a
stable sort is uniquely determined by the comparison and the input). -/
def sortByCode (l : List DictEntry) : List DictEntry :=
  l.insertionSort codeLe

/-- Deduplication loop of `writeCodeWordPairs` (export.go): the `seenCodes`
set is threaded through as a list of codes already written. -/
def dedupByCode : List DictEntry → List String → List DictEntry
  | [], _ => []
  | e :: es, seen =>
    if e.1 ∈ seen then dedupByCode es seen
    else e :: dedupByCode es (e.1 :: seen)

/-- Model of `writeCodeWordPairs` (export.go): the list of entries actually
written, in order — the input is sorted with `sortByCode`, then every entry
whose code was already seen is skipped. -/
def writeCodeWordPairs (entries : List DictEntry) : List DictEntry :=
  dedupByCode (sortByCode entries) []

example : sortByCode [("cd", "z"), ("ab", "y"), ("ab", "x"), ("e", "w")] =
    [("e", "w"), ("ab", "y"), ("ab", "x"), ("cd", "z")] := by decide
example : writeCodeWordPairs [("ab", "x"), ("ab", "y"), ("cd", "z")] =
    [("ab", "x"), ("cd", "z")] := by decide

/-- Remainder of `l` after the first occurrence of `pat`, or `none` when
`pat` does not occur: models `idx := strings.Index(line, pat)` followed by
`line[idx+len(pat):]`. -/
def breakOnSub (pat : List Char) : List Char → Option (List Char)
  | [] => if pat = [] then some [] else none
  | c :: cs =>
    if pat.isPrefixOf (c :: cs) then some ((c :: cs).drop pat.length)
    else breakOnSub pat cs

/-- Candidate extraction of one line in `readSchemaName` (export.go): trim,
skip empty and `#`-comment lines, find `- schema:`, and take the first
field after it. -/
def schemaCandidate (line : String) : Option String :=
  let l := goTrim line
  if l = "" then none
  else if "#".data.isPrefixOf l.data then none
  else
    match breakOnSub "- schema:".data l.data with
    | none => none
    | some rest =>
      match goFields (goTrim (String.mk rest)) with
      | [] => none
      | f :: _ => some f

/-- All candidates collected by the scan loop of `readSchemaName`. -/
def schemaCandidates (lines : List String) : List String :=
  lines.filterMap schemaCandidate

/-- Model of `readSchemaName` (export.go): `none` is the
`no schema name found` error; otherwise the candidate with the smallest
`len` (UTF-8 byte count), the earliest winning ties. -/
def readSchemaName (lines : List String) : Option String :=
  match schemaCandidates lines with
  | [] => none
  | c :: cs =>
    some (cs.foldl (fun best n => if utf8Len n.data < utf8Len best.data then n else best) c)

example : schemaCandidate "  - schema: yuhao_abc   # comment" = some "yuhao_abc" := by decide
example : schemaCandidate "# - schema: yuhao_abc" = none := by decide
example : readSchemaName ["x", "- schema: yustar", "- schema: yu"] = some "yu" := by decide
example : readSchemaName ["nothing here"] = none := by decide

/-- Stack step of the lexical path-cleaning algorithm of
`path/filepath.Clean` (Unix): skip empty and `.` components, resolve `..`
against the top of the stack, otherwise push the component. -/
def cleanPush (rooted : Bool) (stack : List (List Char)) (comp : List Char) :
    List (List Char) :=
  if comp = [] ∨ comp = ['.'] then stack
  else if comp = ['.', '.'] then
    match stack with
    | [] => if rooted then [] else [comp]
    | top :: rest => if top = ['.', '.'] then comp :: stack else rest
  else comp :: stack

/-- Joins cleaned components back with `/` separators. -/
def joinComps : List (List Char) → List Char
  | [] => []
  | [c] => c
  | c :: cs => c ++ '/' :: joinComps cs

/-- Model of Go `path/filepath.Clean` for Unix paths, via the standard
component-stack formulation of its lexical algorithm. -/
def goClean (p : String) : String :=
  if p = "" then "."
  else
    let rooted := p.data.headD ' ' = '/'
    let comps := (splitWhen (fun c => c = '/') p.data).foldl (cleanPush rooted) []
    let out := (if rooted then ['/'] else []) ++ joinComps comps.reverse
    if out = [] then "." else String.mk out

/-- Model of Go `filepath.Join(a, b)`: concatenate the non-empty arguments
with `/` and clean the result. -/
def goJoin (a b : String) : String :=
  if a = "" ∧ b = "" then ""
  else if a = "" then goClean b
  else if b = "" then goClean a
  else goClean (a ++ "/" ++ b)

example : goClean "/tmp/work" = "/tmp/work" := by decide
example : goClean "a//b/./c/.." = "a/b" := by decide
example : goClean "../a/.." = ".." := by decide
example : goJoin "/tmp/work" "../../evil.txt" = "/evil.txt" := by decide
example : goJoin "/tmp/work" "schema/a.yaml" = "/tmp/work/schema/a.yaml" := by decide

/-- An archive entry as seen by `extractFile`: its declared name and whether
it is a directory. -/
structure ZipEntry where
  name : String
  isDir : Bool
deriving DecidableEq

/-- Path computation and ZipSlip check of `extractFile` (export.go): the
destination path is `filepath.Join(destDir, file.Name)` and it must have
`filepath.Clean(destDir) + "/"` as a prefix, otherwise the entry fails with
the `illegal file path` error. -/
def extractFilePath (destDir : String) (e : ZipEntry) : Except String String :=
  if (goClean destDir ++ "/").data.isPrefixOf (goJoin destDir e.name).data then
    Except.ok (goJoin destDir e.name)
  else Except.error ("illegal file path: " ++ goJoin destDir e.name)

/-- Model of `extractZipToDir` (export.go): entries are processed in order;
the first component collects the destination paths actually created, the
second is `some msg` when extraction aborted with an error.  An error stops
the loop, so nothing after the offending entry is processed. -/
def extractZipToDir (destDir : String) : List ZipEntry → List String × Option String
  | [] => ([], none)
  | e :: es =>
    match extractFilePath destDir e with
    | Except.error msg => ([], some msg)
    | Except.ok p =>
      let r := extractZipToDir destDir es
      (p :: r.1, r.2)

example : extractZipToDir "/tmp/work" [⟨"../../evil.txt", false⟩] =
    ([], some "illegal file path: /evil.txt") := by decide
example : extractZipToDir "/tmp/work" [⟨"schema/", true⟩, ⟨"schema/a.yaml", false⟩] =
    (["/tmp/work/schema", "/tmp/work/schema/a.yaml"], none) := by decide

/-- TemplateItemsMeta of export.go: one declarative generation rule
(`category`, `Prefix`, `Suffix`, `MinLength`, `MaxLength`,
`AppendSuffix`). -/
structure ItemsMeta where
  category : List String
  prefixes : List String
  suffixes : List String
  minLength : Int
  maxLength : Int
  appendSuffix : String

instance : Inhabited ItemsMeta := ⟨⟨[], [], [], 0, 0, ""⟩⟩

/-- Go `itemMap[code] = append(itemMap[code], word)`, on an association
list (the map is only ever compared by its contents). -/
def mapAppend (m : List (String × List String)) (k v : String) :
    List (String × List String) :=
  match m with
  | [] => [(k, [v])]
  | (k', vs) :: rest =>
    if k' = k then (k', vs ++ [v]) :: rest else (k', vs) :: mapAppend rest k v

/-- Text files visible to `generateItemsFromMeta`, keyed by file name
relative to the target directory: `none` models a missing (or unopenable)
file, `some lines` its contents. -/
def FileSys : Type := String → Option (List String)

/-- Body of the line-scanning loop of `generateItemsFromMeta` (export.go):
split the line into exactly two fields (code/word or, for the `roots`
category, word/code), apply the prefix, suffix and length filters, append
`AppendSuffix`, and accumulate the word under the code. -/
def procLine (isRoots : Bool) (meta : ItemsMeta) (m : List (String × List String))
    (line : String) : List (String × List String) :=
  let fields := goFields line
  if fields.length ≠ 2 then m
  else
    let code0 := if isRoots then fields.getD 1 "" else fields.getD 0 ""
    let word := if isRoots then fields.getD 0 "" else fields.getD 1 ""
    if meta.prefixes ≠ [] ∧ ¬ meta.prefixes.any (fun p => p.data.isPrefixOf code0.data) then m
    else if meta.suffixes ≠ [] ∧ ¬ meta.suffixes.any (fun s => s.data.isSuffixOf code0.data) then m
    else if 0 < meta.minLength ∧ (utf8Len code0.data : Int) < meta.minLength then m
    else if 0 < meta.maxLength ∧ meta.maxLength < (utf8Len code0.data : Int) then m
    else
      let code := if meta.appendSuffix ≠ "" then code0 ++ meta.appendSuffix else code0
      mapAppend m code word

/-- Processing of one candidate file inside the pattern loop of
`generateItemsFromMeta`: a missing file is skipped, an existing file is
scanned line by line. -/
def procFile (isRoots : Bool) (meta : ItemsMeta) (m : List (String × List String))
    (contents : Option (List String)) : List (String × List String) :=
  match contents with
  | none => m
  | some lines => lines.foldl (procLine isRoots meta) m

/-- The `filePatterns` list of `generateItemsFromMeta`: with a known method
name suffix the suffix-qualified name comes first, then the bare name. -/
def patternsFor (categoryItem methodNameSuffix : String) : List String :=
  if methodNameSuffix ≠ "" then
    [categoryItem ++ "_" ++ methodNameSuffix ++ ".txt", categoryItem ++ ".txt"]
  else
    [categoryItem ++ ".txt"]

/-- The pattern loop of `generateItemsFromMeta` for one category: every
pattern in turn is looked up and, when present, scanned (the Go loop has no
`break`). -/
def procCategory (fs : FileSys) (methodNameSuffix : String) (meta : ItemsMeta)
    (m : List (String × List String)) (categoryItem : String) :
    List (String × List String) :=
  (patternsFor categoryItem methodNameSuffix).foldl
    (fun m pat => procFile (categoryItem = "roots") meta m (fs pat)) m

/-- Model of `generateItemsFromMeta` (export.go): one accumulated mapping
per rule, in rule order, and the error result, which is always `nil`. -/
def generateItemsFromMeta (itemsMeta : List ItemsMeta) (fs : FileSys)
    (methodNameSuffix : String) :
    List (List (String × List String)) × Option String :=
  (itemsMeta.map (fun meta => meta.category.foldl (procCategory fs methodNameSuffix meta) []),
    none)

section SplitLemmas

theorem splitWhen_ne_nil (p : Char → Bool) : ∀ l : List Char, splitWhen p l ≠ [] := by
  intro l
  cases l with
  | nil => simp [splitWhen]
  | cons c cs =>
    simp only [splitWhen]
    cases h : splitWhen p cs with
    | nil => exact absurd h (splitWhen_ne_nil p cs)
    | cons g gs => by_cases hp : p c <;> simp [hp]

theorem splitWhen_no_sep (p : Char → Bool) (l : List Char) (h : ∀ x ∈ l, p x = false) :
    splitWhen p l = [l] := by
  induction l with
  | nil => rfl
  | cons c cs ih =>
    simp only [splitWhen]
    rw [ih (fun x hx => h x (List.mem_cons_of_mem _ hx))]
    simp [h c (List.mem_cons_self _ _)]

theorem splitWhen_append (p : Char → Bool) (l₁ : List Char) (c : Char) (l₂ : List Char)
    (h₁ : ∀ x ∈ l₁, p x = false) (hc : p c = true) :
    splitWhen p (l₁ ++ c :: l₂) = l₁ :: splitWhen p l₂ := by
  induction l₁ with
  | nil =>
    simp only [List.nil_append, splitWhen]
    cases hs : splitWhen p l₂ with
    | nil => exact absurd hs (splitWhen_ne_nil p l₂)
    | cons g gs => simp [hc]
  | cons a as ih =>
    have ih' := ih (fun x hx => h₁ x (List.mem_cons_of_mem _ hx))
    simp only [List.cons_append, splitWhen, List.append_eq] at *
    rw [ih']
    simp [h₁ a (List.mem_cons_self _ _)]

theorem goSplitOn_append {dp sq : String} (h : '-' ∉ dp.data) :
    goSplitOn (dp ++ "-" ++ sq) '-' = dp :: goSplitOn sq '-' := by
  unfold goSplitOn
  have : (dp ++ "-" ++ sq).data = dp.data ++ '-' :: sq.data := by
    simp [String.data_append]
  rw [this, splitWhen_append _ _ _ _ (fun x hx => by simp; exact fun e => h (e ▸ hx)) (by simp)]
  rfl

theorem goSplitOn_no_sep {s : String} (h : '-' ∉ s.data) :
    goSplitOn s '-' = [s] := by
  unfold goSplitOn
  rw [splitWhen_no_sep _ _ (fun x hx => by simp; exact fun e => h (e ▸ hx))]
  rfl

end SplitLemmas

/-- Claim C4: `updateConfigVersion` splits the current token on `-`; when
the date part equals today's date formatted without zero padding the
sequence is incremented, otherwise it resets to 1; a malformed or missing
sequence number defaults to 0 before incrementing; in particular
`2026.1.29-3` bumps to `2026.1.29-4` on 2026.1.29 and to `2026.1.30-1` on
2026.1.30. -/
theorem c4_config_version_bump :
    (∀ (dp sq : String) (y m d : Nat), '-' ∉ dp.data → '-' ∉ sq.data →
      updateConfigVersion (dp ++ "-" ++ sq) y m d =
        fmtDate y m d ++ "-" ++
          toString (if dp = fmtDate y m d then (scanInt sq.data).getD 0 + 1 else 1)) ∧
    (∀ (cur : String) (y m d : Nat), '-' ∉ cur.data →
      updateConfigVersion cur y m d = fmtDate y m d ++ "-1") ∧
    updateConfigVersion "2026.1.29-3" 2026 1 29 = "2026.1.29-4" ∧
    updateConfigVersion "2026.1.29-3" 2026 1 30 = "2026.1.30-1" ∧
    updateConfigVersion "2026.1.29-x" 2026 1 29 = "2026.1.29-1" ∧
    updateConfigVersion "2026.1.29" 2026 1 30 = "2026.1.30-1" := by
  refine ⟨?_, ?_, by decide, by decide, by decide, by decide⟩
  · intro dp sq y m d hdp hsq
    unfold updateConfigVersion
    rw [goSplitOn_append hdp, goSplitOn_no_sep hsq]
    simp
  · intro cur y m d hcur
    unfold updateConfigVersion
    rw [goSplitOn_no_sep hcur]
    simp
    rw [show toString (1 : Int) = "1" from rfl, String.append_assoc]
    rfl

/-- Witness for C4 at concrete inputs: the date part `2026.1.29` with
sequence field `7` on date 2026.1.29 bumps to `2026.1.29-8`, and a
dash-free token resets to sequence 1. -/
theorem c4_config_version_bump_witness :
    updateConfigVersion ("2026.1.29" ++ "-" ++ "7") 2026 1 29 =
      fmtDate 2026 1 29 ++ "-" ++
        toString (if ("2026.1.29" : String) = fmtDate 2026 1 29
          then (scanInt ("7" : String).data).getD 0 + 1 else 1) ∧
    updateConfigVersion "abc" 2026 1 29 = fmtDate 2026 1 29 ++ "-1" :=
  ⟨c4_config_version_bump.1 "2026.1.29" "7" 2026 1 29 (by decide) (by decide),
    c4_config_version_bump.2.1 "abc" 2026 1 29 (by decide)⟩

/-- Claim C7: a quick/pop dictionary line contributes an entry iff it has
exactly two whitespace-delimited fields `text code` with `code` made of
ASCII letters only and `text` containing a non-ASCII character; kept
entries are words exactly when the text has more than one character;
`hello ABC` is excluded and `你好 ni` is a word. -/
theorem c7_quick_word_filter :
    (∀ (line : String) (b : Bool) (e : DictEntry), quickLine line = some (b, e) →
      goFields line = [e.2, e.1] ∧ isEnglishLettersOnly e.1 = true ∧
        isAllASCII e.2 = false ∧ (b = true ↔ 1 < e.2.data.length)) ∧
    (∀ line : String, (quickLine line).isSome ↔
      ∃ word code, goFields line = [word, code] ∧ isEnglishLettersOnly code = true ∧
        isAllASCII word = false) ∧
    quickLine "hello ABC" = none ∧
    quickLine "你好 ni" = some (true, ("ni", "你好")) := by
  refine ⟨?_, ?_, by decide, by decide⟩
  · intro line b e h
    unfold quickLine at h
    split at h
    next word code heq =>
      split at h
      · cases h
      · next hcond =>
        simp only [Bool.or_eq_true, not_or, Bool.not_eq_true,
          Bool.not_eq_false, Bool.not_eq_false'] at hcond
        obtain ⟨h1, h2⟩ := hcond
        split at h <;> next hlen =>
          injection h with h'
          cases h'
          exact ⟨heq, h1, h2, by simpa using hlen⟩
    next => cases h
  · intro line
    constructor
    · intro hs
      unfold quickLine at hs
      split at hs
      next word code heq =>
        split at hs
        · cases hs
        · next hcond =>
          simp only [Bool.or_eq_true, not_or, Bool.not_eq_true,
            Bool.not_eq_false, Bool.not_eq_false'] at hcond
          exact ⟨word, code, heq, hcond.1, hcond.2⟩
      next => cases hs
    · rintro ⟨word, code, hf, h1, h2⟩
      unfold quickLine
      rw [hf]
      simp [h1, h2]

/-- Witness for C7: the line `你好 ni` is kept, classified as a word, with
code `ni` and text `你好`. -/
theorem c7_quick_word_filter_witness :
    goFields "你好 ni" = ["你好", "ni"] ∧ isEnglishLettersOnly "ni" = true ∧
      isAllASCII "你好" = false ∧ (true = true ↔ 1 < ("你好" : String).data.length) :=
  c7_quick_word_filter.1 "你好 ni" true ("ni", "你好") (by decide)

theorem getD_map_lt {α β : Type} (f : α → β) (l : List α) (k : Nat) (d : β) (d' : α)
    (hk : k < l.length) : (l.map f).getD k d = f (l.getD k d') := by
  induction l generalizing k with
  | nil => cases hk
  | cons a as ih =>
    cases k with
    | zero => rfl
    | succ n =>
      simp only [List.map_cons, List.getD_cons_succ]
      exact ih n (by simpa using hk)

/-- Claim C1: a root-dictionary line starting with `+` that splits into at
least 4 fields emits exactly one entry per character of field 3, pairing
the k-th character with the composite key obtained by stripping the `/lm`
prefix from the last field and prepending the remainder to field 1; lines
of any other shape emit nothing. -/
theorem c1_root_parser_emission :
    (∀ line : String,
      ¬ ("+".data.isPrefixOf line.data = true ∧ 4 ≤ (goFields line).length) →
      rootParseLine line = []) ∧
    (∀ line : String, "+".data.isPrefixOf line.data = true → 4 ≤ (goFields line).length →
      (rootParseLine line).length = ((goFields line).getD 3 "").data.length ∧
      ∀ k : Nat, k < ((goFields line).getD 3 "").data.length →
        (rootParseLine line).getD k ("", "") =
          (String.mk [((goFields line).getD 3 "").data.getD k ' '],
            goTrimPre "/lm" ((goFields line).getLastD "") ++ (goFields line).getD 1 "")) ∧
    rootParseLine "+ ab x 你好 cc /lmk" = [("你", "kab"), ("好", "kab")] := by
  refine ⟨?_, ?_, by decide⟩
  · intro line h
    by_cases h1 : "+".data.isPrefixOf line.data = true
    · by_cases h2 : 4 ≤ (goFields line).length
      · exact absurd ⟨h1, h2⟩ h
      · simp [rootParseLine, h1, h2]
    · simp [rootParseLine, h1]
  · intro line h1 h2
    have hrw : rootParseLine line =
        ((goFields line).getD 3 "").data.map
          (fun w => (String.mk [w],
            goTrimPre "/lm" ((goFields line).getLastD "") ++ (goFields line).getD 1 "")) := by
      simp [rootParseLine, h1, h2]
    rw [hrw]
    refine ⟨by simp, ?_⟩
    intro k hk
    rw [getD_map_lt _ _ _ _ ' ' hk]

/-- Witness for C1 at the concrete line `+ ab x 你好 cc /lmk`: two entries
are emitted and the first pairs `你` with the composite key `kab`. -/
theorem c1_root_parser_emission_witness :
    (rootParseLine "+ ab x 你好 cc /lmk").length = 2 ∧
    (rootParseLine "+ ab x 你好 cc /lmk").getD 0 ("", "") = ("你", "kab") := by
  have h := c1_root_parser_emission.2.1 "+ ab x 你好 cc /lmk" (by decide) (by decide)
  refine ⟨by rw [h.1]; decide, ?_⟩
  rw [h.2 0 (by decide)]
  decide

/-- Claim C8 (code bug): the `lastField[3:]` root parsers of
`src/unnamed/part_002` panic (slice bound out of range) on a `+` line with
at least 4 fields whose last field is shorter than 3 bytes, aborting the
whole run instead of skipping the line — while the `strings.TrimPrefix`
variant of `main.go` processes the same line without failing. -/
theorem c8_malformed_line_panics :
    rootParseLineSlice "+ a b 好 xx" = none ∧
    exportRootSliceLines ["+ a b 好 xx", "+ ab x 好 cc /lmk"] = none ∧
    rootParseLine "+ a b 好 xx" = [("好", "xxa")] := by
  refine ⟨by decide, by decide, by decide⟩

/-- Claim C2: after `sortByCode`, entries are ordered by code byte length
first and byte-wise lexicographic code order second; the sort permutes the
input and is stable — two entries with equal codes keep their relative
input order. -/
theorem c2_writer_sort_order :
    ∀ l : List DictEntry,
      List.Perm (sortByCode l) l ∧
      (sortByCode l).Pairwise (fun a b =>
        utf8Len a.1.data < utf8Len b.1.data ∨
          (utf8Len a.1.data = utf8Len b.1.data ∧
            (listLtChar a.1.data b.1.data = true ∨ a.1 = b.1))) ∧
      ∀ a b : DictEntry, a.1 = b.1 → List.Sublist [a, b] l → List.Sublist [a, b] (sortByCode l) := by
  intro l
  refine ⟨List.perm_insertionSort codeLe l, ?_, ?_⟩
  · exact (List.sorted_insertionSort codeLe l).imp (fun h => codeLe_iff.mp h)
  · intro a b hab hsub
    have hle : codeLe a b := by
      rw [codeLe_iff]
      exact Or.inr ⟨by rw [hab], Or.inr hab⟩
    exact List.pair_sublist_insertionSort hle hsub

/-- Witness for C2: two entries sharing the code `ab` stay in input order
through the sort. -/
theorem c2_writer_sort_order_witness :
    List.Sublist [(("ab" : String), ("y" : String)), (("ab" : String), ("x" : String))]
      (sortByCode [("ab", "y"), ("ab", "x")]) :=
  (c2_writer_sort_order [("ab", "y"), ("ab", "x")]).2.2 ("ab", "y") ("ab", "x") rfl
    (List.Sublist.refl _)

theorem dedupByCode_sublist : ∀ (l : List DictEntry) (seen : List String),
    List.Sublist (dedupByCode l seen) l := by
  intro l
  induction l with
  | nil => intro seen; simp [dedupByCode]
  | cons e es ih =>
    intro seen
    simp only [dedupByCode]
    split
    · exact (ih seen).cons e
    · exact (ih (e.1 :: seen)).cons₂ e

theorem dedupByCode_not_seen : ∀ (l : List DictEntry) (seen : List String),
    ∀ e ∈ dedupByCode l seen, e.1 ∉ seen := by
  intro l
  induction l with
  | nil => intro seen e he; cases he
  | cons a as ih =>
    intro seen e he
    simp only [dedupByCode] at he
    split at he
    · exact ih seen e he
    · next hmem =>
      rcases List.mem_cons.mp he with rfl | he'
      · exact hmem
      · intro hs
        exact ih (a.1 :: seen) e he' (List.mem_cons_of_mem _ hs)

theorem dedupByCode_pairwise : ∀ (l : List DictEntry) (seen : List String),
    (dedupByCode l seen).Pairwise (fun a b => a.1 ≠ b.1) := by
  intro l
  induction l with
  | nil => intro seen; simp [dedupByCode]
  | cons a as ih =>
    intro seen
    simp only [dedupByCode]
    split
    · exact ih seen
    · refine List.Pairwise.cons ?_ (ih (a.1 :: seen))
      intro b hb
      have := dedupByCode_not_seen as (a.1 :: seen) b hb
      intro he
      exact this (he ▸ List.mem_cons_self _ _)

theorem dedupByCode_find? : ∀ (l : List DictEntry) (seen : List String) (c : String),
    c ∉ seen →
    (dedupByCode l seen).find? (fun e => e.1 == c) = l.find? (fun e => e.1 == c) := by
  intro l
  induction l with
  | nil => intro seen c _; rfl
  | cons a as ih =>
    intro seen c hc
    simp only [dedupByCode]
    split
    · next hmem =>
      have hne : (a.1 == c) = false := by
        simp only [beq_eq_false_iff_ne, ne_eq]
        intro he
        exact hc (he ▸ hmem)
      rw [List.find?_cons_of_neg _ (by simp [hne])]
      exact ih seen c hc
    · next hmem =>
      by_cases he : a.1 = c
      · rw [List.find?_cons_of_pos _ (by simp [he]), List.find?_cons_of_pos _ (by simp [he])]
      · rw [List.find?_cons_of_neg _ (by simp [he]), List.find?_cons_of_neg _ (by simp [he])]
        exact ih (a.1 :: seen) c (by
          intro hmem'
          rcases List.mem_cons.mp hmem' with h' | h'
          · exact he h'.symm
          · exact hc h')

/-- Claim C3 counterexample: `writeCodeWordPairs` has no deduplication
switch — it always deduplicates.  On the spec's own example input the
duplicate `("ab","y")` row is dropped even though no deduplication mode was
requested anywhere. -/
theorem c3_dedup_counterexample :
    writeCodeWordPairs [("ab", "x"), ("ab", "y"), ("cd", "z")] = [("ab", "x"), ("cd", "z")] ∧
    (("ab" : String), ("y" : String)) ∉
      writeCodeWordPairs [("ab", "x"), ("ab", "y"), ("cd", "z")] := by
  refine ⟨by decide, by decide⟩

/-- Claim C3 amended: deduplication is unconditional in
`writeCodeWordPairs`: after sorting, only the first entry of each distinct
code is written (output codes are pairwise distinct, the output is a
sublist of the sorted input, and for every code the first written entry is
the first sorted entry with that code); on
`[("ab","x"),("ab","y"),("cd","z")]` only the first `ab` row and the `cd`
row are written. -/
theorem c3_dedup_amended :
    (∀ entries : List DictEntry,
      (writeCodeWordPairs entries).Pairwise (fun a b => a.1 ≠ b.1) ∧
      List.Sublist (writeCodeWordPairs entries) (sortByCode entries) ∧
      ∀ c : String, (writeCodeWordPairs entries).find? (fun e => e.1 == c) =
        (sortByCode entries).find? (fun e => e.1 == c)) ∧
    writeCodeWordPairs [("ab", "x"), ("ab", "y"), ("cd", "z")] =
      [("ab", "x"), ("cd", "z")] := by
  refine ⟨?_, by decide⟩
  intro entries
  exact ⟨dedupByCode_pairwise _ [], dedupByCode_sublist _ [],
    fun c => dedupByCode_find? _ [] c (by simp)⟩

theorem foldl_minBy_mem (c : String) (cs : List String) :
    cs.foldl (fun best n => if utf8Len n.data < utf8Len best.data then n else best) c ∈
      c :: cs := by
  induction cs generalizing c with
  | nil => simp
  | cons x xs ih =>
    simp only [List.foldl_cons]
    by_cases hx : utf8Len x.data < utf8Len c.data
    · rw [if_pos hx]
      rcases List.mem_cons.mp (ih x) with h | h
      · rw [h]
        exact List.mem_cons_of_mem _ (List.mem_cons_self _ _)
      · exact List.mem_cons_of_mem _ (List.mem_cons_of_mem _ h)
    · rw [if_neg hx]
      rcases List.mem_cons.mp (ih c) with h | h
      · rw [h]
        exact List.mem_cons_self _ _
      · exact List.mem_cons_of_mem _ (List.mem_cons_of_mem _ h)

theorem foldl_minBy_le (c : String) (cs : List String) :
    ∀ x ∈ c :: cs,
      utf8Len (cs.foldl
          (fun best n => if utf8Len n.data < utf8Len best.data then n else best) c).data ≤
        utf8Len x.data := by
  induction cs generalizing c with
  | nil =>
    intro x hx
    rcases List.mem_cons.mp hx with h | h
    · rw [h]
      exact Nat.le_refl _
    · cases h
  | cons y ys ih =>
    intro x hx
    simp only [List.foldl_cons]
    by_cases hy : utf8Len y.data < utf8Len c.data
    · rw [if_pos hy]
      rcases List.mem_cons.mp hx with h | hx'
    
      · rw [h]
        exact Nat.le_trans (ih y y (List.mem_cons_self _ _)) (Nat.le_of_lt hy)
      · rcases List.mem_cons.mp hx' with h | hx''
        · rw [h]
          exact ih y y (List.mem_cons_self _ _)
        · exact ih y x (List.mem_cons_of_mem _ hx'')
    · rw [if_neg hy]
      rcases List.mem_cons.mp hx with h | hx'
      · rw [h]
        exact ih c c (List.mem_cons_self _ _)
      · rcases List.mem_cons.mp hx' with h | hx''
        · rw [h]
          exact Nat.le_trans (ih c c (List.mem_cons_self _ _)) (Nat.le_of_not_lt hy)
        · exact ih c x (List.mem_cons_of_mem _ hx'')

/-- Claim C6 counterexample: `readSchemaName` compares candidates with Go
`len`, i.e. UTF-8 byte count, not character count — among the candidates
`ab` (2 characters, 2 bytes) and `好` (1 character, 3 bytes) it returns
`ab`, although `好` is the shortest by character count. -/
theorem c6_schema_shortest_counterexample :
    readSchemaName ["- schema: ab", "- schema: 好"] = some "ab" ∧
    "好" ∈ schemaCandidates ["- schema: ab", "- schema: 好"] ∧
    ("好" : String).data.length < ("ab" : String).data.length := by
  refine ⟨by decide, by decide, by decide⟩

theorem foldl_minBy_first (c : String) (cs : List String) :
    (c :: cs).find?
        (fun x => decide (utf8Len x.data ≤
          utf8Len ((cs.foldl
            (fun best n => if utf8Len n.data < utf8Len best.data then n else best) c).data))) =
      some (cs.foldl
        (fun best n => if utf8Len n.data < utf8Len best.data then n else best) c) := by
  induction cs generalizing c with
  | nil =>
    rw [List.find?_cons_of_pos _ (by simp)]
    rfl
  | cons y ys ih =>
    by_cases hy : utf8Len y.data < utf8Len c.data
    · simp only [List.foldl_cons, if_pos hy]
      rw [List.find?_cons_of_neg _ (by
        simp only [decide_eq_true_eq, Nat.not_le]
        exact Nat.lt_of_le_of_lt (foldl_minBy_le y ys y (List.mem_cons_self _ _)) hy)]
      exact ih y
    · simp only [List.foldl_cons, if_neg hy]
      by_cases hc : utf8Len c.data ≤
          utf8Len ((ys.foldl
            (fun best n => if utf8Len n.data < utf8Len best.data then n else best) c).data)
      · have ihc := ih c
        rw [List.find?_cons_of_pos _ (by simp [hc])] at ihc
        injection ihc with he
        rw [List.find?_cons_of_pos _ (by simp [hc])]
        exact congrArg some he
      · have hrc := Nat.lt_of_not_le hc
        have hry := Nat.lt_of_lt_of_le hrc (Nat.le_of_not_lt hy)
        have ihc := ih c
        rw [List.find?_cons_of_neg _ (by simp [hc])] at ihc
        rw [List.find?_cons_of_neg _ (by simp [hc]),
          List.find?_cons_of_neg _ (by simp [Nat.not_le_of_lt hry])]
        exact ihc

/-- Claim C6 amended: `readSchemaName` scans non-empty, non-comment lines
for `- schema:`, taking the first field after the marker as a candidate;
it errors exactly when no candidate exists, and otherwise returns the
earliest candidate of minimal UTF-8 byte count (`len` in Go) — not
character count, and earliest first on ties: every candidate before the
returned one is strictly longer in bytes, stated below as the returned
name being the first candidate whose byte count is at most its own. -/
theorem c6_schema_resolver_amended :
    (∀ lines : List String,
      (readSchemaName lines = none ↔ schemaCandidates lines = []) ∧
      ∀ r : String, readSchemaName lines = some r →
        r ∈ schemaCandidates lines ∧
        (∀ c ∈ schemaCandidates lines, utf8Len r.data ≤ utf8Len c.data) ∧
        (schemaCandidates lines).find?
            (fun c => decide (utf8Len c.data ≤ utf8Len r.data)) = some r) ∧
    readSchemaName ["x", "- schema: yustar", "- schema: yu"] = some "yu" := by
  refine ⟨?_, by decide⟩
  intro lines
  unfold readSchemaName
  cases h : schemaCandidates lines with
  | nil => exact ⟨by simp, fun r hr => by cases hr⟩
  | cons c cs =>
    refine ⟨by simp, ?_⟩
    intro r hr
    injection hr with hr
    subst hr
    refine ⟨h ▸ foldl_minBy_mem c cs, fun x hx => foldl_minBy_le c cs x (h ▸ hx), ?_⟩
    exact foldl_minBy_first c cs

/-- Witness for C6 amended, at a file with the equally short candidates
`ab` and `cd`: the returned name `ab` is a candidate, has minimal byte
length, and is the earliest candidate of that length. -/
theorem c6_schema_resolver_amended_witness :
    "ab" ∈ schemaCandidates ["- schema: ab", "- schema: cd"] ∧
    (∀ c ∈ schemaCandidates ["- schema: ab", "- schema: cd"],
      utf8Len ("ab" : String).data ≤ utf8Len c.data) ∧
    (schemaCandidates ["- schema: ab", "- schema: cd"]).find?
        (fun c => decide (utf8Len c.data ≤ utf8Len ("ab" : String).data)) = some "ab" :=
  (c6_schema_resolver_amended.1 ["- schema: ab", "- schema: cd"]).2 "ab" (by decide)

theorem extractFilePath_ok {destDir : String} {e : ZipEntry} {p : String}
    (h : extractFilePath destDir e = Except.ok p) :
    p = goJoin destDir e.name ∧
      (goClean destDir ++ "/").data.isPrefixOf p.data = true := by
  unfold extractFilePath at h
  split at h
  · next hc =>
    injection h with h
    exact ⟨h.symm, h ▸ hc⟩
  · cases h

theorem extractFilePath_error {destDir : String} {e : ZipEntry}
    (h : (goClean destDir ++ "/").data.isPrefixOf (goJoin destDir e.name).data = false) :
    extractFilePath destDir e =
      Except.error ("illegal file path: " ++ goJoin destDir e.name) := by
  unfold extractFilePath
  have hne : ¬ ((goClean destDir ++ "/").data.isPrefixOf (goJoin destDir e.name).data = true) := by
    rw [h]
    exact Bool.false_ne_true
  rw [if_neg hne]

/-- Claim C5: every destination path actually created by `extractZipToDir`
lies strictly inside the cleaned destination root; an entry whose joined
path escapes the root makes the extraction return the `illegal file path`
error at the first such entry, with exactly the earlier (in-root) entries
processed and nothing after it; in particular the single entry
`../../evil.txt` under root `/tmp/work` fails immediately with no path
created. -/
theorem c5_path_traversal_rejection :
    (∀ (destDir : String) (entries : List ZipEntry),
      ∀ p ∈ (extractZipToDir destDir entries).1,
        (goClean destDir ++ "/").data.isPrefixOf p.data = true) ∧
    (∀ (destDir : String) (good : List ZipEntry) (bad : ZipEntry) (rest : List ZipEntry),
      (∀ e ∈ good,
        (goClean destDir ++ "/").data.isPrefixOf (goJoin destDir e.name).data = true) →
      (goClean destDir ++ "/").data.isPrefixOf (goJoin destDir bad.name).data = false →
      extractZipToDir destDir (good ++ bad :: rest) =
        (good.map (fun e => goJoin destDir e.name),
          some ("illegal file path: " ++ goJoin destDir bad.name))) ∧
    extractZipToDir "/tmp/work" [⟨"../../evil.txt", false⟩] =
      ([], some "illegal file path: /evil.txt") := by
  refine ⟨?_, ?_, by decide⟩
  · intro destDir entries
    induction entries with
    | nil => intro p hp; cases hp
    | cons e es ih =>
      intro p hp
      simp only [extractZipToDir] at hp
      cases he : extractFilePath destDir e with
      | error msg => rw [he] at hp; cases hp
      | ok q =>
        rw [he] at hp
        simp only at hp
        rcases List.mem_cons.mp hp with h | h
        · exact h ▸ (extractFilePath_ok he).2
        · exact ih p h
  · intro destDir good bad rest hgood hbad
    induction good with
    | nil =>
      simp only [List.nil_append, List.map_nil, extractZipToDir]
      rw [extractFilePath_error hbad]
    | cons g gs ih =>
      have hg : extractFilePath destDir g = Except.ok (goJoin destDir g.name) := by
        unfold extractFilePath
        rw [if_pos (by simpa using hgood g (List.mem_cons_self _ _))]
      simp only [List.cons_append, List.map_cons, extractZipToDir, List.append_eq]
      rw [hg]
      rw [ih (fun e he => hgood e (List.mem_cons_of_mem _ he))]

/-- Witness for C5: applying the abort lemma with no preceding good
entries, the single traversal entry `../../evil.txt` yields the illegal
path error and an empty list of created paths. -/
theorem c5_path_traversal_rejection_witness :
    extractZipToDir "/tmp/work" ([] ++ (⟨"../../evil.txt", false⟩ : ZipEntry) :: []) =
      (([] : List ZipEntry).map (fun e => goJoin "/tmp/work" e.name),
        some ("illegal file path: " ++ goJoin "/tmp/work" "../../evil.txt")) :=
  c5_path_traversal_rejection.2.1 "/tmp/work" [] ⟨"../../evil.txt", false⟩ []
    (by intro e he; cases he) (by decide)

/-- File system with both the suffix-qualified and the bare category file
present, used to exhibit the accumulation behaviour of the pattern loop. -/
def fsBoth : FileSys := fun pat =>
  if pat = "words_x.txt" then some ["a foo"]
  else if pat = "words.txt" then some ["b bar"] else none

/-- Generation rule over the single category `words` with no filters. -/
def ruleWords : ItemsMeta := ⟨["words"], [], [], 0, 0, ""⟩

/-- Claim C9 counterexample: with suffix `x` and both `words_x.txt` and
`words.txt` present, the rule's mapping contains the entry parsed from the
bare file as well as the one from the suffix-qualified file — the Go
pattern loop has no `break`, so entries accumulate from both files instead
of being read from exactly one. -/
theorem c9_fallback_counterexample :
    (generateItemsFromMeta [ruleWords] fsBoth "x").1 =
      [[("a", ["foo"]), ("b", ["bar"])]] ∧
    ("b", ["bar"]) ∈ (generateItemsFromMeta [ruleWords] fsBoth "x").1.getD 0 [] ∧
    fsBoth "words_x.txt" = some ["a foo"] ∧
    fsBoth "words.txt" = some ["b bar"] := by
  refine ⟨by decide, by decide, rfl, rfl⟩

/-- Claim C9 amended: for each category, when a variant suffix is known the
renderer reads the suffix-qualified file `<category>_<suffix>.txt` first
and then ALSO the bare `<category>.txt`, accumulating entries from every
file that exists (in that order); only when the suffix-qualified file is
absent do entries come from the bare file alone, and with no suffix only
the bare file is consulted. -/
theorem c9_category_file_accumulation :
    (∀ (fs : FileSys) (suffix : String) (meta : ItemsMeta) (cat : String)
        (m : List (String × List String)), suffix ≠ "" →
      procCategory fs suffix meta m cat =
        procFile (cat = "roots") meta
          (procFile (cat = "roots") meta m (fs (cat ++ "_" ++ suffix ++ ".txt")))
          (fs (cat ++ ".txt"))) ∧
    (∀ (fs : FileSys) (suffix : String) (meta : ItemsMeta) (cat : String)
        (m : List (String × List String)), suffix ≠ "" →
      fs (cat ++ "_" ++ suffix ++ ".txt") = none →
      procCategory fs suffix meta m cat =
        procFile (cat = "roots") meta m (fs (cat ++ ".txt"))) ∧
    (∀ (fs : FileSys) (meta : ItemsMeta) (cat : String)
        (m : List (String × List String)),
      procCategory fs "" meta m cat =
        procFile (cat = "roots") meta m (fs (cat ++ ".txt"))) := by
  refine ⟨?_, ?_, ?_⟩
  · intro fs suffix meta cat m hs
    simp [procCategory, patternsFor, hs]
  · intro fs suffix meta cat m hs habs
    simp [procCategory, patternsFor, hs, habs, procFile]
  · intro fs meta cat m
    simp [procCategory, patternsFor]

/-- Witness for C9 amended: with both files of `fsBoth` present and suffix
`x`, the category processing equals reading the suffix-qualified file and
then the bare file. -/
theorem c9_category_file_accumulation_witness :
    procCategory fsBoth "x" ruleWords [] "words" =
      procFile (("words" : String) = "roots") ruleWords
        (procFile (("words" : String) = "roots") ruleWords []
          (fsBoth ("words" ++ "_" ++ "x" ++ ".txt")))
        (fsBoth ("words" ++ ".txt")) :=
  c9_category_file_accumulation.1 fsBoth "x" ruleWords "words" [] (by decide)

theorem procCategory_absent (fs : FileSys) (suffix : String) (meta : ItemsMeta)
    (cat : String) (m : List (String × List String))
    (h : ∀ pat ∈ patternsFor cat suffix, fs pat = none) :
    procCategory fs suffix meta m cat = m := by
  unfold procCategory
  generalize hp : patternsFor cat suffix = pats at h
  clear hp
  induction pats generalizing m with
  | nil => rfl
  | cons p ps ih =>
    simp only [List.foldl_cons]
    rw [h p (List.mem_cons_self _ _)]
    exact ih m (fun q hq => h q (List.mem_cons_of_mem _ hq))

theorem foldl_procCategory_absent (fs : FileSys) (suffix : String) (meta : ItemsMeta) :
    ∀ (cats : List String) (m : List (String × List String)),
      (∀ cat ∈ cats, ∀ pat ∈ patternsFor cat suffix, fs pat = none) →
      cats.foldl (procCategory fs suffix meta) m = m := by
  intro cats
  induction cats with
  | nil => intro m _; rfl
  | cons c cs ih =>
    intro m h
    simp only [List.foldl_cons]
    rw [procCategory_absent fs suffix meta c m (h c (List.mem_cons_self _ _))]
    exact ih m (fun x hx => h x (List.mem_cons_of_mem _ hx))

/-- Claim C10: `generateItemsFromMeta` is total — it always returns a `nil`
error and exactly one mapping per rule, in rule order; a rule all of whose
category files are absent contributes an empty mapping instead of failing
the run. -/
theorem c10_generate_items_totality :
    (∀ (metas : List ItemsMeta) (fs : FileSys) (suffix : String),
      (generateItemsFromMeta metas fs suffix).2 = none ∧
      (generateItemsFromMeta metas fs suffix).1.length = metas.length) ∧
    (∀ (metas : List ItemsMeta) (fs : FileSys) (suffix : String) (i : Nat),
      i < metas.length →
      (∀ cat ∈ (metas.getD i default).category,
        ∀ pat ∈ patternsFor cat suffix, fs pat = none) →
      (generateItemsFromMeta metas fs suffix).1.getD i [] = []) := by
  constructor
  · intro metas fs suffix
    exact ⟨rfl, by simp [generateItemsFromMeta]⟩
  · intro metas fs suffix i hi habs
    unfold generateItemsFromMeta
    simp only
    rw [getD_map_lt _ _ _ _ default hi]
    exact foldl_procCategory_absent fs suffix _ _ [] habs

/-- Witness for C10: with every file absent, the single rule still yields a
mapping — the empty one. -/
theorem c10_generate_items_totality_witness :
    (generateItemsFromMeta [⟨["words"], [], [], 0, 0, ""⟩] (fun _ => none) "x").1.getD 0 [] =
      [] :=
  c10_generate_items_totality.2 [⟨["words"], [], [], 0, 0, ""⟩] (fun _ => none) "x" 0
    (by decide) (fun cat _ pat _ => rfl)

end YuTool
